import Mathlib

/-!
# httpscreenshot: target extraction and deduplication

A shallow embedding of `main.go`: the `Target` record, the deduplicating and
sorting collection `Targets` (`Add`, `Sort`, `String`), the extraction of
targets from a parsed Nmap report (`targetsFromNmapRun`) and the control flow of
`main` (merging of reports, the capture loop, the output document).

Library code that `main.go` calls is not part of the repository:

* `natural.Less` (github.com/maruel/natural) is a parameter `less` of the
  collection operations; `naturalLess` is a model of it from the specification;
* `sort.SliceStable` is embedded as the insertion sort that the Go standard
  library runs on a slice, each element moving down from the right end;
* `log.Logger.Fatalf` and `Fatalln` print and call `os.Exit(1)`, which ends the
  process without running the deferred calls;
* `net.LookupHost` is a parameter `lookup`, true when the lookup returns no error;
* the browser page (`Navigate`, `WaitLoad`, `Screenshot`) is a parameter giving
  the outcome of each step per position of the target list.
-/

namespace HttpScreenshot

/-! ## Data model -/

/-- The Go struct `Target`. -/
structure Target where
  Scheme : String
  Host : String
  Port : Int
  deriving DecidableEq, Repr

/-- The Go type `Targets` (a slice of targets), as a list. -/
abbrev Targets := List Target

/-- The comparison of `Targets.Add`: `tgt.Host == target.Host && tgt.Port == target.Port`. -/
def sameKey (tgt target : Target) : Bool :=
  decide (tgt.Host = target.Host) && decide (tgt.Port = target.Port)

/-- The string `fmt.Sprintf("%s:%d", t.Host, t.Port)` that `Targets.Sort` compares. -/
def sortKey (t : Target) : String := t.Host ++ ":" ++ toString t.Port

/-- The method `Target.String`: `fmt.Sprintf("%s://%s:%d", t.Scheme, t.Host, t.Port)`. -/
def Target.String (t : Target) : String :=
  t.Scheme ++ "://" ++ t.Host ++ ":" ++ toString t.Port

/-! ## Sorting -/

/-- The inner loop of the insertion sort of `sort.SliceStable`:
`for j := i; j > a && less(j, j-1); j-- { swap(j, j-1) }`. The sorted part before
position `i` is given in reverse (its last element first); the element `x` moves
towards the front past every element it is less than, and stops at the first one it
is not less than. -/
def insertBack {α : Type} (lt : α → α → Bool) (x : α) : List α → List α
  | [] => [x]
  | p :: ps => if lt x p then p :: insertBack lt x ps else x :: p :: ps

/-- The outer loop of the insertion sort, on a reversed sorted part. -/
def insertionSortRev {α : Type} (lt : α → α → Bool) (l : List α) : List α :=
  l.foldl (fun done x => insertBack lt x done) []

/-- The call `sort.SliceStable(t, lt)`. The Go library sorts a slice of up to 20
elements by this insertion sort; a longer slice is cut into blocks of 20, each sorted
so, and the blocks are merged in place. Both give a permutation of the slice, and the
same list whenever `lt` is a strict weak order, the result of a stable sort being
unique then. -/
def sliceStable {α : Type} (lt : α → α → Bool) (l : List α) : List α :=
  (insertionSortRev lt l).reverse

/-- The method `Targets.Sort`, with `natural.Less` as the parameter `less`. -/
def Targets.Sort (less : String → String → Bool) (t : Targets) : Targets :=
  sliceStable (fun a b => less (sortKey a) (sortKey b)) t

/-! ## Targets.Add -/

/-- One iteration of the loop of `Targets.Add`: `empty` is the flag computed before
the loop, `t` the collection so far, `target` the candidate. -/
def addStep (empty : Bool) (t : Targets) (target : Target) : Targets :=
  if empty then t ++ [target]
  else if t.any (fun tgt => sameKey tgt target) then t
  else t ++ [target]

/-- The loop of `Targets.Add`, before the final sort. -/
def addLoop (t : Targets) (targets : List Target) : Targets :=
  targets.foldl (addStep (decide (t.length = 0))) t

/-- The method `Targets.Add`. -/
def Targets.Add (less : String → String → Bool) (t : Targets) (targets : List Target) :
    Targets :=
  Targets.Sort less (addLoop t targets)

/-! ## Natural order -/

/-- Modelled from the spec: `natural.Less` belongs to the library
github.com/maruel/natural. The key of a string under the natural order of the
specification ("numeric runs compare by numeric value, not lexicographically"): one
token per maximal run of decimal digits, carrying the value of the run, and one token
per other character. A digit run is the token `(48, value)` (48 is the code of the
digit zero) and another character `c` is `(code of c, 0)`, so that tokens of different
kinds compare as their first characters do. The argument `run` is the value of the
digit run being read, if any. -/
def naturalKey : Option Nat → List Char → List (Nat × Nat)
  | none, [] => []
  | some n, [] => [(48, n)]
  | none, c :: cs =>
    if c.isDigit then naturalKey (some (c.toNat - 48)) cs
    else (c.toNat, 0) :: naturalKey none cs
  | some n, c :: cs =>
    if c.isDigit then naturalKey (some (10 * n + (c.toNat - 48))) cs
    else (48, n) :: (c.toNat, 0) :: naturalKey none cs

/-- Modelled from the spec: the order of two tokens of `naturalKey`, first by
character code, then by numeric value. -/
def tokenLess (a b : Nat × Nat) : Bool :=
  decide (a.1 < b.1) || (decide (a.1 = b.1) && decide (a.2 < b.2))

/-- Modelled from the spec: the lexicographic order of two token lists. -/
def tokensLess : List (Nat × Nat) → List (Nat × Nat) → Bool
  | [], [] => false
  | [], _ :: _ => true
  | _ :: _, [] => false
  | a :: as, b :: bs => tokenLess a b || (decide (a = b) && tokensLess as bs)

/-- Modelled from the spec: `natural.Less(a, b)` of github.com/maruel/natural,
the natural order of strings in which digit runs compare by numeric value. -/
def naturalLess (a b : String) : Bool :=
  tokensLess (naturalKey none a.toList) (naturalKey none b.toList)

/-! ## Uniqueness of keys -/

/-- No two members of the collection share the same `(Host, Port)`. -/
def UniqueKeys (t : Targets) : Prop :=
  t.Pairwise (fun a b => ¬ (a.Host = b.Host ∧ a.Port = b.Port))

instance (t : Targets) : Decidable (UniqueKeys t) := by
  unfold UniqueKeys
  infer_instance

/-! ## The parsed Nmap report

The records of github.com/freb/go-nmap, with the fields that `main.go` reads. -/

/-- The record `nmap.Address`. -/
structure Address where
  Addr : String
  deriving DecidableEq, Repr

/-- The record `nmap.Hostname`; `Typ` is the Go field `Type`. -/
structure Hostname where
  Name : String
  Typ : String
  deriving DecidableEq, Repr

/-- The record `nmap.Service`; an absent tunnel attribute is the empty string. -/
structure Service where
  Name : String
  Tunnel : String
  deriving DecidableEq, Repr

/-- The record `nmap.Port`. -/
structure Port where
  PortId : Int
  Service : Service
  deriving DecidableEq, Repr

/-- The record `nmap.Host`. -/
structure Host where
  Addresses : List Address
  Hostnames : List Hostname
  Ports : List Port
  deriving DecidableEq, Repr

/-- The record `nmap.NmapRun`. -/
structure NmapRun where
  Hosts : List Host
  deriving DecidableEq, Repr

/-- The Go struct `Config`. -/
structure Config where
  NmapXML : List String
  AllHostnames : Bool
  Bin : String
  Headless : Bool
  OutFile : String
  Overwrite : Bool
  IgnoreCerts : Bool
  Trace : Bool
  DisableIncognito : Bool
  Debug : Bool
  deriving DecidableEq, Repr

/-! ## targetsFromNmapRun -/

/-- The test `strings.HasPrefix(port.Service.Name, "http")`. -/
def qualifies (port : Port) : Bool :=
  "http".toList.isPrefixOf port.Service.Name.toList

/-- The scheme of a port: `"https"` if `port.Service.Tunnel == "ssl"`, else `"http"`. -/
def schemeOf (port : Port) : String :=
  if port.Service.Tunnel = "ssl" then "https" else "http"

/-- The body of the loop over `host.Addresses`:
`targets.Add(&Target{scheme, addr.Addr, port.PortId})`. -/
def addressStep (less : String → String → Bool) (scheme : String) (port : Port)
    (targets : Targets) (addr : Address) : Targets :=
  Targets.Add less targets [⟨scheme, addr.Addr, port.PortId⟩]

/-- The body of the loop over `host.Hostnames`. A hostname of type `"user"` is added;
another one is added if `conf.AllHostnames` is set and `net.LookupHost` (the
parameter `lookup`) returns no error; a failed lookup only prints in debug mode. -/
def hostnameStep (less : String → String → Bool) (conf : Config) (lookup : String → Bool)
    (scheme : String) (port : Port) (targets : Targets) (hostname : Hostname) : Targets :=
  if hostname.Typ = "user" then
    Targets.Add less targets [⟨scheme, hostname.Name, port.PortId⟩]
  else if conf.AllHostnames then
    if lookup hostname.Name then
      Targets.Add less targets [⟨scheme, hostname.Name, port.PortId⟩]
    else targets
  else targets

/-- The body of the loop over `host.Ports`. -/
def portStep (less : String → String → Bool) (conf : Config) (lookup : String → Bool)
    (host : Host) (targets : Targets) (port : Port) : Targets :=
  if !qualifies port then targets
  else
    let scheme := schemeOf port
    let targets := host.Addresses.foldl (addressStep less scheme port) targets
    host.Hostnames.foldl (hostnameStep less conf lookup scheme port) targets

/-- The body of the loop over `nr.Hosts`. -/
def hostStep (less : String → String → Bool) (conf : Config) (lookup : String → Bool)
    (targets : Targets) (host : Host) : Targets :=
  host.Ports.foldl (portStep less conf lookup host) targets

/-- The function `targetsFromNmapRun`; the global `conf` and the resolver are
parameters. -/
def targetsFromNmapRun (less : String → String → Bool) (conf : Config)
    (lookup : String → Bool) (nr : NmapRun) : Targets :=
  nr.Hosts.foldl (hostStep less conf lookup) []

/-! ## main -/

/-- The variable `htmlIntro`. -/
def htmlIntro : String :=
  "\n<!DOCTYPE html>\n<html lang=\"en\">\n  <head>\n    <meta charset=\"UTF-8\">\n" ++
  "    <meta name=\"viewport\" content=\"width=device-width, initial-scale=1.0\">\n" ++
  "    <meta http-equiv=\"X-UA-Compatible\" content=\"ie=edge\">\n" ++
  "    <title>HTTP Screenshots</title>\n  </head>\n  <body>\n"

/-- The variable `htmlOutro`. -/
def htmlOutro : String := "\n  </body>\n</html>\n"

/-- The block `fmt.Sprintf(htmlImage, url, url, img)`, `img` being the base64 text of
the screenshot. -/
def htmlImage (url img : String) : String :=
  "\n<a href=\x27" ++ url ++ "\x27 target=_blank style=\x27font-size:x-large\x27>\n" ++
  url ++ "\n</a>\n<br>\n<img src=\x27data:image/png;base64," ++ img ++
  "\x27 width=400 border=1 style=\x27max-width:1024; margin-top:5px;\x27\n" ++
  " onclick=\x27this.setAttribute(\"width\", this.getAttribute(\"width\") === " ++
  "\"400\" ? \"100%\" : \"400\")\x27 />\n<hr style=\"margin:20px 0 20px 0\">\n"

/-- What the browser page answers for one target: whether `page.Navigate` and
`page.WaitLoad` return no error, and the bytes of `page.Screenshot` (`none` on error). -/
structure PageResult where
  Navigate : Bool
  WaitLoad : Bool
  Screenshot : Option (List Nat)
  deriving DecidableEq, Repr

/-- The capture loop of `main` (`for _, t := range targets`), from position `i` on.
`doc` is the list of strings written to the output file so far, `page i` the answers
of the browser for the target at position `i`, `encode` the function
`base64.StdEncoding.EncodeToString`. -/
def captureLoop (encode : List Nat → String) (page : Nat → PageResult) :
    Nat → List Target → List String → List String
  | _, [], doc => doc
  | i, t :: ts, doc =>
    if !(page i).Navigate then captureLoop encode page (i + 1) ts doc
    else if !(page i).WaitLoad then captureLoop encode page (i + 1) ts doc
    else
      match (page i).Screenshot with
      | none => captureLoop encode page (i + 1) ts doc
      | some sshotb =>
        captureLoop encode page (i + 1) ts
          (doc ++ [htmlImage t.String (encode sshotb)])

/-- The loop of `main` over `conf.NmapXML`. Each input file is given by the report
parsed from it, `none` when opening, reading or parsing fails (`logErr.Fatalf`);
the result is `none` on such a fatal exit. -/
def loadTargets (less : String → String → Bool) (conf : Config) (lookup : String → Bool) :
    List (Option NmapRun) → Targets → Option Targets
  | [], targets => some targets
  | none :: _, _ => none
  | some nmapRun :: rest, targets =>
    loadTargets less conf lookup rest
      (Targets.Add less targets (targetsFromNmapRun less conf lookup nmapRun))

/-- How a run of `main` ends: by returning, by `logErr.Fatal*` (which calls
`os.Exit(1)`, so that deferred calls do not run), or by a panic of a `Must*` call
(deferred calls run). -/
inductive Ending where
  | returned
  | fatal
  | panicked
  deriving DecidableEq, Repr

/-- The output file: the strings written to it and whether `Close` was called. -/
structure Doc where
  written : List String
  closed : Bool
  deriving DecidableEq, Repr

/-- The outside world of one run of `main`. -/
structure Env where
  /-- Per file of `conf.NmapXML`, the parsed report, `none` on a failure. -/
  reports : List (Option NmapRun)
  /-- Whether `os.Stat(conf.OutFile)` returns no error. -/
  outFileExists : Bool
  /-- Whether `os.OpenFile` returns a file. -/
  openFile : Bool
  /-- Whether `l.Launch()` returns no error. -/
  launch : Bool
  /-- Whether `MustConnect`, `MustIgnoreCertErrors`, `MustIncognito` and `MustPage`
  all return without a panic. -/
  connect : Bool
  /-- The answers of the browser page per position of the target list. -/
  page : Nat → PageResult

/-- The result of a run of `main`: how it ended and the state of the output file
(`none` when the file was never opened). -/
structure Run where
  ending : Ending
  doc : Option Doc
  deriving DecidableEq, Repr

/-- The deferred closure of `main`: `doc.WriteString(htmlOutro); doc.Close()`. -/
def deferredClose (doc : Doc) : Doc :=
  { written := doc.written ++ [htmlOutro], closed := true }

/-- The function `main`, after the flags have been parsed into `conf`. -/
def main (less : String → String → Bool) (conf : Config) (lookup : String → Bool)
    (encode : List Nat → String) (env : Env) : Run :=
  match loadTargets less conf lookup env.reports [] with
  | none => ⟨Ending.fatal, none⟩
  | some targets =>
    if targets.length = 0 then ⟨Ending.fatal, none⟩
    else if env.outFileExists && !conf.Overwrite then ⟨Ending.fatal, none⟩
    else
      let doc : Option Doc :=
        if env.openFile then some ⟨[htmlIntro], false⟩ else none
      if !env.launch then ⟨Ending.fatal, doc⟩
      else if !env.connect then ⟨Ending.panicked, doc.map deferredClose⟩
      else
        let doc := doc.map (fun d =>
          { d with written := captureLoop encode env.page 0 targets d.written })
        ⟨Ending.returned, doc.map deferredClose⟩

/-! ## The candidates of a report

The targets that `targetsFromNmapRun` passes to `Targets.Add`, in the order of the
calls; the theorems below relate the function to this list. -/

/-- The candidates of one hostname for one qualifying port. -/
def hostnameCandidates (conf : Config) (lookup : String → Bool) (scheme : String)
    (port : Port) (hostname : Hostname) : List Target :=
  if hostname.Typ = "user" then [⟨scheme, hostname.Name, port.PortId⟩]
  else if conf.AllHostnames then
    if lookup hostname.Name then [⟨scheme, hostname.Name, port.PortId⟩] else []
  else []

/-- The candidates of one port of a host. -/
def portCandidates (conf : Config) (lookup : String → Bool) (host : Host) (port : Port) :
    List Target :=
  if !qualifies port then []
  else
    host.Addresses.map (fun addr => (⟨schemeOf port, addr.Addr, port.PortId⟩ : Target)) ++
      host.Hostnames.flatMap (hostnameCandidates conf lookup (schemeOf port) port)

/-- The candidates of one host. -/
def hostCandidates (conf : Config) (lookup : String → Bool) (host : Host) : List Target :=
  host.Ports.flatMap (portCandidates conf lookup host)

/-- The candidates of a report. -/
def candidates (conf : Config) (lookup : String → Bool) (nr : NmapRun) : List Target :=
  nr.Hosts.flatMap (hostCandidates conf lookup)

/-- The report without the ports whose service name does not start with `"http"`. -/
def qualifyingOnly (nr : NmapRun) : NmapRun :=
  ⟨nr.Hosts.map (fun host => { host with Ports := host.Ports.filter qualifies })⟩

/-- The block that the capture loop is to write for the target `t` at position `i`
according to the specification: one block, built from the URL `scheme://host:port`,
if navigation, load and screenshot all succeed, and none otherwise. -/
def specBlock (encode : List Nat → String) (page : Nat → PageResult) (i : Nat) (t : Target) :
    Option String :=
  if (page i).Navigate = true ∧ (page i).WaitLoad = true then
    (page i).Screenshot.map
      (fun sshotb =>
        htmlImage (t.Scheme ++ "://" ++ t.Host ++ ":" ++ toString t.Port) (encode sshotb))
  else none

/-! ## Facts about the sort -/

theorem insertBack_perm {α : Type} (lt : α → α → Bool) (x : α) (l : List α) :
    (insertBack lt x l).Perm (x :: l) := by
  induction l with
  | nil => simp [insertBack]
  | cons p ps ih =>
    unfold insertBack
    split
    · exact (List.Perm.cons p ih).trans (List.Perm.swap x p ps)
    · exact List.Perm.refl _

theorem foldl_insertBack_perm {α : Type} (lt : α → α → Bool) (l done : List α) :
    (l.foldl (fun done x => insertBack lt x done) done).Perm (done ++ l) := by
  induction l generalizing done with
  | nil => simp
  | cons x xs ih =>
    simp only [List.foldl_cons]
    refine (ih (insertBack lt x done)).trans ?_
    refine (List.Perm.append_right xs (insertBack_perm lt x done)).trans ?_
    simpa using (@List.perm_middle _ x done xs).symm

theorem sliceStable_perm {α : Type} (lt : α → α → Bool) (l : List α) :
    (sliceStable lt l).Perm l := by
  unfold sliceStable insertionSortRev
  refine (List.reverse_perm _).trans ?_
  simpa using foldl_insertBack_perm lt l []

theorem insertBack_sorted {α : Type} (lt : α → α → Bool)
    (hasym : ∀ a b, lt a b = true → lt b a = false)
    (hneg : ∀ a b c, lt b a = false → lt c b = false → lt c a = false)
    (x : α) (l : List α) (hl : l.Pairwise (fun a b => lt a b = false)) :
    (insertBack lt x l).Pairwise (fun a b => lt a b = false) := by
  induction l with
  | nil => simp [insertBack]
  | cons p ps ih =>
    rw [List.pairwise_cons] at hl
    unfold insertBack
    by_cases hx : lt x p = true
    · rw [if_pos hx, List.pairwise_cons]
      refine ⟨?_, ih hl.2⟩
      intro y hy
      rcases (List.Perm.mem_iff (insertBack_perm lt x ps)).1 hy with hy | hy
      · simp only [List.mem_cons] at *
        exact hasym x p hx
      · exact hl.1 y (by assumption)
    · rw [if_neg hx, List.pairwise_cons, List.pairwise_cons]
      have hxp : lt x p = false := by simpa using hx
      refine ⟨?_, hl⟩
      intro y hy
      rcases List.mem_cons.1 hy with hy | hy
      · subst hy; exact hxp
      · exact hneg y p x (hl.1 y hy) hxp

theorem sliceStable_sorted {α : Type} (lt : α → α → Bool)
    (hasym : ∀ a b, lt a b = true → lt b a = false)
    (hneg : ∀ a b c, lt b a = false → lt c b = false → lt c a = false)
    (l : List α) : (sliceStable lt l).Pairwise (fun a b => lt b a = false) := by
  unfold sliceStable insertionSortRev
  rw [List.pairwise_reverse]
  have h : ∀ (l done : List α), done.Pairwise (fun a b => lt a b = false) →
      (l.foldl (fun done x => insertBack lt x done) done).Pairwise
        (fun a b => lt a b = false) := by
    intro l
    induction l with
    | nil => intro done hd; simpa using hd
    | cons x xs ih =>
      intro done hd
      exact ih _ (insertBack_sorted lt hasym hneg x done hd)
  exact h l [] List.Pairwise.nil

/-! ## Facts about the natural order -/

theorem tokenLess_asymm (a b : Nat × Nat) (h : tokenLess a b = true) :
    tokenLess b a = false := by
  obtain ⟨a1, a2⟩ := a
  obtain ⟨b1, b2⟩ := b
  simp only [tokenLess, Bool.or_eq_true, Bool.and_eq_true, decide_eq_true_eq] at h
  simp only [tokenLess, Bool.or_eq_false_iff, Bool.and_eq_false_iff, decide_eq_false_iff_not]
  omega

theorem tokenLess_trans (a b c : Nat × Nat) (h1 : tokenLess a b = true)
    (h2 : tokenLess b c = true) : tokenLess a c = true := by
  obtain ⟨a1, a2⟩ := a
  obtain ⟨b1, b2⟩ := b
  obtain ⟨c1, c2⟩ := c
  simp only [tokenLess, Bool.or_eq_true, Bool.and_eq_true, decide_eq_true_eq] at *
  omega

theorem tokenLess_total (a b : Nat × Nat) (h1 : tokenLess a b = false)
    (h2 : tokenLess b a = false) : a = b := by
  obtain ⟨a1, a2⟩ := a
  obtain ⟨b1, b2⟩ := b
  simp only [tokenLess, Bool.or_eq_false_iff, Bool.and_eq_false_iff,
    decide_eq_false_iff_not] at h1 h2
  simp only [Prod.mk.injEq]
  omega

theorem tokensLess_asymm (a b : List (Nat × Nat)) (h : tokensLess a b = true) :
    tokensLess b a = false := by
  induction a generalizing b with
  | nil => cases b <;> simp_all [tokensLess]
  | cons x xs ih =>
    cases b with
    | nil => simp [tokensLess] at h
    | cons y ys =>
      simp only [tokensLess, Bool.or_eq_true, Bool.and_eq_true, decide_eq_true_eq] at h
      simp only [tokensLess, Bool.or_eq_false_iff, Bool.and_eq_false_iff,
        decide_eq_false_iff_not]
      rcases h with h | ⟨rfl, h⟩
      · refine ⟨tokenLess_asymm x y h, ?_⟩
        by_cases hxy : y = x
        · subst hxy
          rw [tokenLess_asymm y y h] at h
          exact absurd h (by simp)
        · exact Or.inl hxy
      · refine ⟨?_, Or.inr (ih ys h)⟩
        cases hx : tokenLess x x with
        | false => rfl
        | true => rw [tokenLess_asymm x x hx] at hx; exact absurd hx (by simp)

theorem tokensLess_total (a b : List (Nat × Nat)) (h1 : tokensLess a b = false)
    (h2 : tokensLess b a = false) : a = b := by
  induction a generalizing b with
  | nil => cases b <;> simp_all [tokensLess]
  | cons x xs ih =>
    cases b with
    | nil => simp [tokensLess] at h2
    | cons y ys =>
      simp only [tokensLess, Bool.or_eq_false_iff, Bool.and_eq_false_iff,
        decide_eq_false_iff_not] at h1 h2
      have hxy : x = y := tokenLess_total x y h1.1 h2.1
      subst hxy
      rcases h1.2 with h | h
      · exact absurd rfl h
      · rcases h2.2 with h3 | h3
        · exact absurd rfl h3
        · rw [ih ys h h3]

theorem tokensLess_trans (a b c : List (Nat × Nat)) (h1 : tokensLess a b = true)
    (h2 : tokensLess b c = true) : tokensLess a c = true := by
  induction a generalizing b c with
  | nil =>
    cases b with
    | nil => simp [tokensLess] at h1
    | cons y ys =>
      cases c with
      | nil => simp [tokensLess] at h2
      | cons z zs => simp [tokensLess]
  | cons x xs ih =>
    cases b with
    | nil => simp [tokensLess] at h1
    | cons y ys =>
      cases c with
      | nil => simp [tokensLess] at h2
      | cons z zs =>
        simp only [tokensLess, Bool.or_eq_true, Bool.and_eq_true, decide_eq_true_eq] at *
        rcases h1 with h1 | ⟨rfl, h1⟩
        · rcases h2 with h2 | ⟨rfl, _⟩
          · exact Or.inl (tokenLess_trans x y z h1 h2)
          · exact Or.inl h1
        · rcases h2 with h2 | ⟨rfl, h2⟩
          · exact Or.inl h2
          · exact Or.inr ⟨rfl, ih ys zs h1 h2⟩

theorem naturalLess_asymm (a b : String) (h : naturalLess a b = true) :
    naturalLess b a = false :=
  tokensLess_asymm _ _ h

theorem naturalLess_negTrans (a b c : String) (h1 : naturalLess b a = false)
    (h2 : naturalLess c b = false) : naturalLess c a = false := by
  unfold naturalLess at *
  cases hca : tokensLess (naturalKey none c.toList) (naturalKey none a.toList) with
  | false => rfl
  | true =>
    cases hab : tokensLess (naturalKey none a.toList) (naturalKey none b.toList) with
    | true => rw [tokensLess_trans _ _ _ hca hab] at h2; exact absurd h2 (by simp)
    | false =>
      have hEq := tokensLess_total _ _ hab h1
      rw [hEq] at hca
      rw [hca] at h2
      exact absurd h2 (by simp)

/-! ## Facts about Targets.Add -/

theorem Sort_perm (less : String → String → Bool) (t : Targets) :
    (Targets.Sort less t).Perm t :=
  sliceStable_perm _ t

theorem uniqueKeys_perm {s t : Targets} (h : s.Perm t) : UniqueKeys s ↔ UniqueKeys t := by
  unfold UniqueKeys
  refine List.Perm.pairwise_iff ?_ h
  intro x y hxy hyx
  exact hxy ⟨hyx.1.symm, hyx.2.symm⟩

theorem sameKey_iff (a b : Target) :
    sameKey a b = true ↔ a.Host = b.Host ∧ a.Port = b.Port := by
  simp [sameKey]

theorem foldl_addStep_true (batch t : Targets) :
    batch.foldl (addStep true) t = t ++ batch := by
  induction batch generalizing t with
  | nil => simp
  | cons c cs ih => simp [List.foldl_cons, addStep, ih]

theorem addLoop_nil (batch : Targets) : addLoop [] batch = batch := by
  simp [addLoop, foldl_addStep_true]

theorem addLoop_of_ne_nil (t batch : Targets) (h : t ≠ []) :
    addLoop t batch = batch.foldl (addStep false) t := by
  cases t with
  | nil => exact absurd rfl h
  | cons a as => simp [addLoop]

/-- The general rule of the loop keeps the collection as a front part and appends a
sublist of the batch, none of whose members has the key of a member of the
collection. -/
theorem foldl_addStep_false_spec (batch t : Targets) :
    ∃ extra : Targets, batch.foldl (addStep false) t = t ++ extra ∧ extra.Sublist batch ∧
      ∀ e ∈ extra, ∀ a ∈ t, sameKey a e = false := by
  induction batch generalizing t with
  | nil => exact ⟨[], by simp, List.Sublist.refl _, by simp⟩
  | cons c cs ih =>
    simp only [List.foldl_cons]
    by_cases hany : t.any (fun tgt => sameKey tgt c) = true
    · obtain ⟨extra, h1, h2, h3⟩ := ih t
      refine ⟨extra, ?_, List.Sublist.cons c h2, h3⟩
      simp only [addStep, hany, if_true, Bool.false_eq_true, if_false]
      exact h1
    · obtain ⟨extra, h1, h2, h3⟩ := ih (t ++ [c])
      refine ⟨c :: extra, ?_, List.Sublist.cons₂ c h2, ?_⟩
      · simp only [addStep, hany, Bool.false_eq_true, if_false]
        simpa using h1
      · intro e he a ha
        rcases List.mem_cons.1 he with he | he
        · subst he
          have := List.any_eq_false.1 (by simpa using hany) a ha
          simpa using this
        · exact h3 e he a (List.mem_append_left _ ha)

theorem addStep_false_unique (t : Targets) (c : Target) (h : UniqueKeys t) :
    UniqueKeys (addStep false t c) := by
  by_cases hany : t.any (fun tgt => sameKey tgt c) = true
  · simpa [addStep, hany] using h
  · simp only [addStep, hany, Bool.false_eq_true, if_false]
    unfold UniqueKeys at *
    rw [List.pairwise_append]
    refine ⟨h, List.pairwise_singleton _ _, ?_⟩
    intro a ha b hb
    rw [List.mem_singleton] at hb
    subst hb
    have := List.any_eq_false.1 (by simpa using hany) a ha
    rwa [sameKey_iff] at this

theorem foldl_addStep_false_unique (batch t : Targets) (h : UniqueKeys t) :
    UniqueKeys (batch.foldl (addStep false) t) := by
  induction batch generalizing t with
  | nil => simpa using h
  | cons c cs ih => exact ih _ (addStep_false_unique t c h)

/-- The members of the collection stay in it through `Targets.Add`. -/
theorem mem_Add_of_mem (less : String → String → Bool) (t batch : Targets) (a : Target)
    (ha : a ∈ t) : a ∈ Targets.Add less t batch := by
  unfold Targets.Add
  rw [List.Perm.mem_iff (Sort_perm less _)]
  have hne : t ≠ [] := List.ne_nil_of_mem ha
  rw [addLoop_of_ne_nil t batch hne]
  obtain ⟨extra, h1, -, -⟩ := foldl_addStep_false_spec batch t
  rw [h1]
  exact List.mem_append_left _ ha

/-- On a collection with a member, `Targets.Add` keeps the keys distinct. -/
theorem Add_unique_of_ne_nil (less : String → String → Bool) (t batch : Targets)
    (hne : t ≠ []) (h : UniqueKeys t) : UniqueKeys (Targets.Add less t batch) := by
  unfold Targets.Add
  rw [uniqueKeys_perm (Sort_perm less _), addLoop_of_ne_nil t batch hne]
  exact foldl_addStep_false_unique batch t h

/-- On the empty collection, `Targets.Add` returns the whole batch, sorted. -/
theorem Add_nil_perm (less : String → String → Bool) (batch : Targets) :
    (Targets.Add less [] batch).Perm batch := by
  unfold Targets.Add
  rw [addLoop_nil]
  exact Sort_perm less batch

/-- Adding one candidate follows the general rule, also on the empty collection. -/
theorem Add_single (less : String → String → Bool) (t : Targets) (c : Target) :
    Targets.Add less t [c] = Targets.Sort less (addStep false t c) := by
  cases t with
  | nil => simp [Targets.Add, addLoop, addStep]
  | cons a as => simp [Targets.Add, addLoop]

theorem Add_single_unique (less : String → String → Bool) (t : Targets) (c : Target)
    (h : UniqueKeys t) : UniqueKeys (Targets.Add less t [c]) := by
  rw [Add_single, uniqueKeys_perm (Sort_perm less _)]
  exact addStep_false_unique t c h

theorem mem_Add_single (less : String → String → Bool) (t : Targets) (c e : Target) :
    e ∈ Targets.Add less t [c] ↔
      e ∈ t ∨ (e = c ∧ t.any (fun tgt => sameKey tgt c) = false) := by
  rw [Add_single, List.Perm.mem_iff (Sort_perm less _)]
  by_cases hany : t.any (fun tgt => sameKey tgt c) = true
  · simp [addStep, hany]
  · simp only [addStep, hany, Bool.false_eq_true, if_false, List.mem_append,
      List.mem_singleton]
    have : t.any (fun tgt => sameKey tgt c) = false := by simpa using hany
    simp [this]

/-! ## The collection: claims C1, C2, C3 -/

/-- C1, evaluated at the failing input: on the empty collection `Targets.Add` with a
batch that holds the host `example.com` and the port 80 twice appends both candidates,
whatever the order function, so that two members of the result share their key. -/
theorem C1_add_on_empty_keeps_duplicate :
    ∀ less : String → String → Bool,
      (Targets.Add less [] [⟨"http", "example.com", 80⟩, ⟨"https", "example.com", 80⟩]).length = 2
      ∧ ¬ UniqueKeys
          (Targets.Add less [] [⟨"http", "example.com", 80⟩, ⟨"https", "example.com", 80⟩]) := by
  intro less
  have hp := Add_nil_perm less [⟨"http", "example.com", 80⟩, ⟨"https", "example.com", 80⟩]
  refine ⟨by simpa using hp.length_eq, ?_⟩
  rw [uniqueKeys_perm hp]
  decide

/-- C2: after `Targets.Add`, on any collection and any batch, the collection is sorted
in the natural order of the strings `Host:Port`: for all positions `i < j` the key of
the member at `j` is not naturally less than the key of the member at `i`. Adding
10.0.0.10, 10.0.0.2, a2.example and a10.example (port 80) to the empty collection
gives the order 10.0.0.2, 10.0.0.10, a2.example, a10.example. The collection is
sorted in the same sense for every order function that is a strict weak order. -/
theorem C2_add_sorted_natural (t batch : Targets) :
    (∀ (i j : Nat) (hij : i < j) (hj : j < (Targets.Add naturalLess t batch).length),
      naturalLess (sortKey ((Targets.Add naturalLess t batch).get ⟨j, hj⟩))
        (sortKey ((Targets.Add naturalLess t batch).get ⟨i, Nat.lt_trans hij hj⟩)) = false)
    ∧ Targets.Add naturalLess []
        [⟨"http", "10.0.0.10", 80⟩, ⟨"http", "10.0.0.2", 80⟩, ⟨"http", "a2.example", 80⟩,
         ⟨"http", "a10.example", 80⟩]
      = [⟨"http", "10.0.0.2", 80⟩, ⟨"http", "10.0.0.10", 80⟩, ⟨"http", "a2.example", 80⟩,
         ⟨"http", "a10.example", 80⟩]
    ∧ (∀ less : String → String → Bool,
        (∀ a b, less a b = true → less b a = false) →
        (∀ a b c, less b a = false → less c b = false → less c a = false) →
        ∀ (i j : Nat) (hij : i < j) (hj : j < (Targets.Add less t batch).length),
          less (sortKey ((Targets.Add less t batch).get ⟨j, hj⟩))
            (sortKey ((Targets.Add less t batch).get ⟨i, Nat.lt_trans hij hj⟩)) = false) := by
  have hgen : ∀ less : String → String → Bool,
      (∀ a b, less a b = true → less b a = false) →
      (∀ a b c, less b a = false → less c b = false → less c a = false) →
      ∀ (i j : Nat) (hij : i < j) (hj : j < (Targets.Add less t batch).length),
        less (sortKey ((Targets.Add less t batch).get ⟨j, hj⟩))
          (sortKey ((Targets.Add less t batch).get ⟨i, Nat.lt_trans hij hj⟩)) = false := by
    intro less hasym hneg i j hij hj
    have hs : (Targets.Add less t batch).Pairwise
        (fun a b => less (sortKey b) (sortKey a) = false) :=
      sliceStable_sorted (fun a b => less (sortKey a) (sortKey b))
        (fun a b h => hasym _ _ h) (fun a b c h1 h2 => hneg _ _ _ h1 h2) (addLoop t batch)
    exact List.pairwise_iff_getElem.1 hs i j (Nat.lt_trans hij hj) hj hij
  exact ⟨hgen naturalLess naturalLess_asymm naturalLess_negTrans, by decide, hgen⟩

/-- C2 at a concrete input: in the collection obtained from 10.0.0.10 and 10.0.0.2 the
second member is not naturally less than the first. -/
theorem C2_add_sorted_natural_witness :
    naturalLess
      (sortKey ((Targets.Add naturalLess []
        [⟨"http", "10.0.0.10", 80⟩, ⟨"http", "10.0.0.2", 80⟩]).get ⟨1, by decide⟩))
      (sortKey ((Targets.Add naturalLess []
        [⟨"http", "10.0.0.10", 80⟩, ⟨"http", "10.0.0.2", 80⟩]).get ⟨0, by decide⟩)) = false :=
  (C2_add_sorted_natural [] [⟨"http", "10.0.0.10", 80⟩, ⟨"http", "10.0.0.2", 80⟩]).1
    0 1 (by decide) (by decide)

/-- C3: first write wins across calls of `Targets.Add`. Every member of the collection
`t` is a member after the call, scheme included; for a candidate whose host and port
are those of a member of `t`, the members with that key after the call are those of
`t` (nothing is appended for it, whatever its scheme); and if every candidate
collides with a member of `t`, the collection after the call has exactly the members
of `t`. -/
theorem C3_first_write_wins (less : String → String → Bool) (t batch : Targets) :
    (∀ m ∈ t, m ∈ Targets.Add less t batch)
    ∧ (∀ c ∈ batch, (∃ m ∈ t, m.Host = c.Host ∧ m.Port = c.Port) →
        ((Targets.Add less t batch).filter (fun e => sameKey e c)).Perm
          (t.filter (fun e => sameKey e c)))
    ∧ ((∀ c ∈ batch, ∃ m ∈ t, m.Host = c.Host ∧ m.Port = c.Port) →
        (Targets.Add less t batch).Perm t) := by
  refine ⟨fun m hm => mem_Add_of_mem less t batch m hm, ?_, ?_⟩
  · rintro c - ⟨m, hm, hmc⟩
    have hne : t ≠ [] := List.ne_nil_of_mem hm
    unfold Targets.Add
    refine (List.Perm.filter _ (Sort_perm less _)).trans ?_
    rw [addLoop_of_ne_nil t batch hne]
    obtain ⟨extra, h1, -, h3⟩ := foldl_addStep_false_spec batch t
    rw [h1, List.filter_append]
    have hnil : extra.filter (fun e => sameKey e c) = [] := by
      rw [List.filter_eq_nil_iff]
      intro e he hec
      rw [sameKey_iff] at hec
      have hme : sameKey m e = true := by
        rw [sameKey_iff]
        exact ⟨hmc.1.trans hec.1.symm, hmc.2.trans hec.2.symm⟩
      rw [h3 e he m hm] at hme
      exact absurd hme (by simp)
    rw [hnil, List.append_nil]
  · intro hall
    cases t with
    | nil =>
      cases batch with
      | nil => exact Add_nil_perm less []
      | cons c cs =>
        obtain ⟨m, hm, -⟩ := hall c (List.mem_cons_self c cs)
        exact absurd hm (List.not_mem_nil m)
    | cons a as =>
      unfold Targets.Add
      refine (Sort_perm less _).trans ?_
      rw [addLoop_of_ne_nil (a :: as) batch (List.cons_ne_nil a as)]
      obtain ⟨extra, h1, h2, h3⟩ := foldl_addStep_false_spec batch (a :: as)
      have hnil : extra = [] := by
        rw [List.eq_nil_iff_forall_not_mem]
        intro e he
        obtain ⟨m, hm, hme⟩ := hall e (h2.subset he)
        have hk : sameKey m e = true := (sameKey_iff m e).2 hme
        rw [h3 e he m hm] at hk
        exact absurd hk (by simp)
      rw [h1, hnil, List.append_nil]

/-- C3 at a concrete input: adding `https://a:80` to a collection that holds
`http://a:80` leaves the collection with that one member. -/
theorem C3_first_write_wins_witness :
    (Targets.Add naturalLess [⟨"http", "a", 80⟩] [⟨"https", "a", 80⟩]).Perm
      [⟨"http", "a", 80⟩] :=
  (C3_first_write_wins naturalLess [⟨"http", "a", 80⟩] [⟨"https", "a", 80⟩]).2.2
    (by
      intro c hc
      rw [List.mem_singleton] at hc
      subst hc
      exact ⟨⟨"http", "a", 80⟩, List.mem_singleton.2 rfl, rfl, rfl⟩)

/-! ## Facts about targetsFromNmapRun -/

theorem foldl_flatMap_fusion {α β γ : Type} (f : γ → β → γ) (step : γ → α → γ)
    (g : α → List β) (h : ∀ acc x, step acc x = (g x).foldl f acc) (l : List α) (acc : γ) :
    l.foldl step acc = (l.flatMap g).foldl f acc := by
  induction l generalizing acc with
  | nil => simp
  | cons x xs ih =>
    rw [List.foldl_cons, List.flatMap_cons, List.foldl_append, ih, h]

theorem hostnameStep_eq (less : String → String → Bool) (conf : Config)
    (lookup : String → Bool) (scheme : String) (port : Port) (targets : Targets)
    (hostname : Hostname) :
    hostnameStep less conf lookup scheme port targets hostname =
      (hostnameCandidates conf lookup scheme port hostname).foldl
        (fun acc c => Targets.Add less acc [c]) targets := by
  unfold hostnameStep hostnameCandidates
  split
  · rfl
  · split
    · split <;> rfl
    · rfl

theorem portStep_eq (less : String → String → Bool) (conf : Config)
    (lookup : String → Bool) (host : Host) (targets : Targets) (port : Port) :
    portStep less conf lookup host targets port =
      (portCandidates conf lookup host port).foldl
        (fun acc c => Targets.Add less acc [c]) targets := by
  unfold portStep portCandidates
  split
  · rfl
  · simp only [List.foldl_append, List.foldl_map]
    rw [← foldl_flatMap_fusion (fun acc c => Targets.Add less acc [c])
      (hostnameStep less conf lookup (schemeOf port) port)
      (hostnameCandidates conf lookup (schemeOf port) port)
      (hostnameStep_eq less conf lookup (schemeOf port) port)]
    rfl

/-- The function `targetsFromNmapRun` adds the candidates of the report one by one,
starting from the empty collection. -/
theorem targetsFromNmapRun_eq (less : String → String → Bool) (conf : Config)
    (lookup : String → Bool) (nr : NmapRun) :
    targetsFromNmapRun less conf lookup nr =
      (candidates conf lookup nr).foldl (fun acc c => Targets.Add less acc [c]) [] := by
  unfold targetsFromNmapRun candidates
  refine foldl_flatMap_fusion _ _ _ ?_ nr.Hosts []
  intro acc host
  unfold hostStep hostCandidates
  exact foldl_flatMap_fusion _ _ _ (portStep_eq less conf lookup host) host.Ports acc

theorem mem_foldl_addOne (less : String → String → Bool) (cands acc : Targets) (e : Target)
    (he : e ∈ cands.foldl (fun acc c => Targets.Add less acc [c]) acc) :
    e ∈ acc ∨ e ∈ cands := by
  induction cands generalizing acc with
  | nil => exact Or.inl (by simpa using he)
  | cons c cs ih =>
    rw [List.foldl_cons] at he
    rcases ih _ he with h | h
    · rcases (mem_Add_single less acc c e).1 h with h | h
      · exact Or.inl h
      · exact Or.inr (by simp [h.1])
    · exact Or.inr (List.mem_cons_of_mem c h)

theorem mem_foldl_addOne_of_mem (less : String → String → Bool) (cands acc : Targets)
    (e : Target) (he : e ∈ acc) :
    e ∈ cands.foldl (fun acc c => Targets.Add less acc [c]) acc := by
  induction cands generalizing acc with
  | nil => simpa using he
  | cons c cs ih =>
    rw [List.foldl_cons]
    exact ih _ ((mem_Add_single less acc c e).2 (Or.inl he))

theorem key_mem_foldl_addOne (less : String → String → Bool) (cands acc : Targets)
    (c : Target) (hc : c ∈ cands) :
    ∃ e ∈ cands.foldl (fun acc c => Targets.Add less acc [c]) acc,
      e.Host = c.Host ∧ e.Port = c.Port := by
  induction cands generalizing acc with
  | nil => exact absurd hc (List.not_mem_nil c)
  | cons d ds ih =>
    rw [List.foldl_cons]
    rcases List.mem_cons.1 hc with h | h
    · subst h
      by_cases hany : acc.any (fun tgt => sameKey tgt c) = true
      · obtain ⟨m, hm, hmc⟩ := List.any_eq_true.1 hany
        exact ⟨m, mem_foldl_addOne_of_mem less ds _ m
          ((mem_Add_single less acc c m).2 (Or.inl hm)), (sameKey_iff m c).1 hmc⟩
      · have hf : acc.any (fun tgt => sameKey tgt c) = false := by simpa using hany
        exact ⟨c, mem_foldl_addOne_of_mem less ds _ c
          ((mem_Add_single less acc c c).2 (Or.inr ⟨rfl, hf⟩)), rfl, rfl⟩
    · exact ih _ h

theorem foldl_addOne_unique (less : String → String → Bool) (cands acc : Targets)
    (h : UniqueKeys acc) :
    UniqueKeys (cands.foldl (fun acc c => Targets.Add less acc [c]) acc) := by
  induction cands generalizing acc with
  | nil => simpa using h
  | cons c cs ih => exact ih _ (Add_single_unique less acc c h)

/-- Where a candidate of a report comes from. -/
theorem mem_candidates (conf : Config) (lookup : String → Bool) (nr : NmapRun) (e : Target) :
    e ∈ candidates conf lookup nr ↔
      ∃ host ∈ nr.Hosts, ∃ port ∈ host.Ports, qualifies port = true ∧
        e.Scheme = schemeOf port ∧ e.Port = port.PortId ∧
        ((∃ addr ∈ host.Addresses, e.Host = addr.Addr) ∨
         (∃ hostname ∈ host.Hostnames, e.Host = hostname.Name ∧
           (hostname.Typ = "user" ∨
             (hostname.Typ ≠ "user" ∧ conf.AllHostnames = true ∧
               lookup hostname.Name = true)))) := by
  unfold candidates hostCandidates
  simp only [List.mem_flatMap]
  constructor
  · rintro ⟨host, hh, port, hp, he⟩
    refine ⟨host, hh, port, hp, ?_⟩
    unfold portCandidates at he
    by_cases hq : qualifies port = true
    · simp only [hq, Bool.not_true, Bool.false_eq_true, if_false, List.mem_append,
        List.mem_map, List.mem_flatMap] at he
      refine ⟨hq, ?_⟩
      rcases he with ⟨addr, ha, rfl⟩ | ⟨hostname, hn, he⟩
      · exact ⟨rfl, rfl, Or.inl ⟨addr, ha, rfl⟩⟩
      · unfold hostnameCandidates at he
        by_cases hu : hostname.Typ = "user"
        · simp only [hu, if_true, List.mem_singleton] at he
          subst he
          exact ⟨rfl, rfl, Or.inr ⟨hostname, hn, rfl, Or.inl hu⟩⟩
        · by_cases hall : conf.AllHostnames = true
          · by_cases hl : lookup hostname.Name = true
            · simp only [hu, hall, hl, if_true, if_false, List.mem_singleton] at he
              subst he
              exact ⟨rfl, rfl, Or.inr ⟨hostname, hn, rfl, Or.inr ⟨hu, hall, hl⟩⟩⟩
            · simp [hu, hall, hl] at he
          · simp [hu, hall] at he
    · simp [hq] at he
  · rintro ⟨host, hh, port, hp, hq, hs, hport, hsrc⟩
    refine ⟨host, hh, port, hp, ?_⟩
    unfold portCandidates
    simp only [hq, Bool.not_true, Bool.false_eq_true, if_false, List.mem_append,
      List.mem_map, List.mem_flatMap]
    have hE : ∀ name, e.Host = name → e = ⟨schemeOf port, name, port.PortId⟩ := by
      intro name hname
      cases e
      simp_all
    rcases hsrc with ⟨addr, ha, hhost⟩ | ⟨hostname, hn, hhost, hgate⟩
    · exact Or.inl ⟨addr, ha, (hE _ hhost).symm⟩
    · refine Or.inr ⟨hostname, hn, ?_⟩
      unfold hostnameCandidates
      rcases hgate with hu | ⟨hu, hall, hl⟩
      · simp [hu, hE _ hhost]
      · simp [hu, hall, hl, hE _ hhost]

theorem mem_targetsFromNmapRun (less : String → String → Bool) (conf : Config)
    (lookup : String → Bool) (nr : NmapRun) (e : Target)
    (he : e ∈ targetsFromNmapRun less conf lookup nr) : e ∈ candidates conf lookup nr := by
  rw [targetsFromNmapRun_eq] at he
  rcases mem_foldl_addOne less _ [] e he with h | h
  · exact absurd h (List.not_mem_nil e)
  · exact h

theorem key_mem_targetsFromNmapRun (less : String → String → Bool) (conf : Config)
    (lookup : String → Bool) (nr : NmapRun) (c : Target)
    (hc : c ∈ candidates conf lookup nr) :
    ∃ e ∈ targetsFromNmapRun less conf lookup nr, e.Host = c.Host ∧ e.Port = c.Port := by
  rw [targetsFromNmapRun_eq]
  exact key_mem_foldl_addOne less _ [] c hc

theorem targetsFromNmapRun_unique (less : String → String → Bool) (conf : Config)
    (lookup : String → Bool) (nr : NmapRun) :
    UniqueKeys (targetsFromNmapRun less conf lookup nr) := by
  rw [targetsFromNmapRun_eq]
  exact foldl_addOne_unique less _ [] List.Pairwise.nil

theorem flatMap_filter_of_nil {α β : Type} (p : α → Bool) (f : α → List β)
    (h : ∀ x, p x = false → f x = []) (l : List α) :
    (l.filter p).flatMap f = l.flatMap f := by
  induction l with
  | nil => rfl
  | cons x xs ih =>
    cases hp : p x with
    | true => simp [List.filter_cons, hp, List.flatMap_cons, ih]
    | false => simp [List.filter_cons, hp, List.flatMap_cons, ih, h x hp]

theorem candidates_qualifyingOnly (conf : Config) (lookup : String → Bool) (nr : NmapRun) :
    candidates conf lookup (qualifyingOnly nr) = candidates conf lookup nr := by
  unfold candidates qualifyingOnly
  simp only [List.flatMap_map]
  congr 1
  funext host
  unfold hostCandidates
  simp only
  have : portCandidates conf lookup { host with Ports := host.Ports.filter qualifies }
      = portCandidates conf lookup host := by
    funext port
    rfl
  rw [this]
  refine flatMap_filter_of_nil qualifies _ ?_ host.Ports
  intro port hq
  simp [portCandidates, hq]

/-! ## The extraction: claims C4, C5, C6, C7 -/

/-- C4: the service-name filter of `targetsFromNmapRun`. Service names such as "ftp"
and "HTTP" do not qualify, "http" and "https" do. Every endpoint of the output has
the port id of a port of the report whose service name starts with "http"; a report
without such a port yields the empty list; and the output is the one of the report
from which the other ports are removed, so that such a port contributes nothing,
whatever the addresses, hostnames, configuration and resolver. -/
theorem C4_service_name_filter (less : String → String → Bool) (conf : Config)
    (lookup : String → Bool) (nr : NmapRun) :
    (qualifies ⟨21, ⟨"ftp", ""⟩⟩ = false ∧ qualifies ⟨80, ⟨"HTTP", ""⟩⟩ = false ∧
      qualifies ⟨80, ⟨"http", ""⟩⟩ = true ∧ qualifies ⟨443, ⟨"https", "ssl"⟩⟩ = true)
    ∧ (∀ e ∈ targetsFromNmapRun less conf lookup nr,
        ∃ host ∈ nr.Hosts, ∃ port ∈ host.Ports,
          "http".toList.isPrefixOf port.Service.Name.toList = true ∧ e.Port = port.PortId)
    ∧ ((∀ host ∈ nr.Hosts, ∀ port ∈ host.Ports,
          "http".toList.isPrefixOf port.Service.Name.toList = false) →
        targetsFromNmapRun less conf lookup nr = [])
    ∧ targetsFromNmapRun less conf lookup (qualifyingOnly nr)
        = targetsFromNmapRun less conf lookup nr := by
  refine ⟨by decide, ?_, ?_, ?_⟩
  · intro e he
    obtain ⟨host, hh, port, hp, hq, -, hport, -⟩ :=
      (mem_candidates conf lookup nr e).1 (mem_targetsFromNmapRun less conf lookup nr e he)
    exact ⟨host, hh, port, hp, hq, hport⟩
  · intro hnone
    rw [List.eq_nil_iff_forall_not_mem]
    intro e he
    obtain ⟨host, hh, port, hp, hq, -⟩ :=
      (mem_candidates conf lookup nr e).1 (mem_targetsFromNmapRun less conf lookup nr e he)
    have hf := hnone host hh port hp
    unfold qualifies at hq
    rw [hf] at hq
    exact absurd hq (by simp)
  · rw [targetsFromNmapRun_eq, targetsFromNmapRun_eq, candidates_qualifyingOnly]

/-- C4 at a concrete input: a host with an address, a user hostname and a single port
of service "ftp" yields no endpoint, with all hostnames enabled and a resolver that
succeeds on every name. -/
theorem C4_service_name_filter_witness :
    targetsFromNmapRun naturalLess
      ⟨[], true, "", true, "http-sshots.html", false, true, false, false, false⟩
      (fun _ => true)
      ⟨[⟨[⟨"10.0.0.1"⟩], [⟨"ftp.example", "user"⟩], [⟨21, ⟨"ftp", ""⟩⟩]⟩]⟩ = [] :=
  (C4_service_name_filter naturalLess
      ⟨[], true, "", true, "http-sshots.html", false, true, false, false, false⟩
      (fun _ => true)
      ⟨[⟨[⟨"10.0.0.1"⟩], [⟨"ftp.example", "user"⟩], [⟨21, ⟨"ftp", ""⟩⟩]⟩]⟩).2.2.1
    (by decide)

/-- C5: the scheme derivation of `targetsFromNmapRun`. Every endpoint of the output
was created for a qualifying port of a host of the report, of which it has the port
id, one of whose addresses or hostnames is its host, and its scheme is "https" if the
tunnel of that port is "ssl" and "http" for any other tunnel, the empty one included.
For a report with one host and one qualifying port, every endpoint of the output has
the scheme derived from the tunnel of that port. -/
theorem C5_scheme_derivation (less : String → String → Bool) (conf : Config)
    (lookup : String → Bool) (nr : NmapRun) :
    (∀ e ∈ targetsFromNmapRun less conf lookup nr,
      ∃ host ∈ nr.Hosts, ∃ port ∈ host.Ports, qualifies port = true ∧
        e.Port = port.PortId ∧
        (e.Host ∈ host.Addresses.map Address.Addr ∨
          e.Host ∈ host.Hostnames.map Hostname.Name) ∧
        e.Scheme = (if port.Service.Tunnel = "ssl" then "https" else "http"))
    ∧ (∀ (host : Host) (port : Port), nr.Hosts = [host] →
        host.Ports.filter qualifies = [port] →
        ∀ e ∈ targetsFromNmapRun less conf lookup nr,
          e.Scheme = (if port.Service.Tunnel = "ssl" then "https" else "http")) := by
  have hmain : ∀ e ∈ targetsFromNmapRun less conf lookup nr,
      ∃ host ∈ nr.Hosts, ∃ port ∈ host.Ports, qualifies port = true ∧
        e.Port = port.PortId ∧
        (e.Host ∈ host.Addresses.map Address.Addr ∨
          e.Host ∈ host.Hostnames.map Hostname.Name) ∧
        e.Scheme = (if port.Service.Tunnel = "ssl" then "https" else "http") := by
    intro e he
    obtain ⟨host, hh, port, hp, hq, hs, hport, hsrc⟩ :=
      (mem_candidates conf lookup nr e).1 (mem_targetsFromNmapRun less conf lookup nr e he)
    refine ⟨host, hh, port, hp, hq, hport, ?_, hs⟩
    rcases hsrc with ⟨addr, ha, hhost⟩ | ⟨hostname, hn, hhost, -⟩
    · exact Or.inl (List.mem_map.2 ⟨addr, ha, hhost.symm⟩)
    · exact Or.inr (List.mem_map.2 ⟨hostname, hn, hhost.symm⟩)
  refine ⟨hmain, ?_⟩
  intro host port hhosts hports e he
  obtain ⟨host', hh, port', hp, hq, -, -, hs⟩ := hmain e he
  rw [hhosts, List.mem_singleton] at hh
  subst hh
  have hmem : port' ∈ host'.Ports.filter qualifies := List.mem_filter.2 ⟨hp, hq⟩
  rw [hports, List.mem_singleton] at hmem
  rw [← hmem]
  exact hs

/-- C5 at a concrete input: one host with the port 443 of service "https" and tunnel
"ssl", beside a port of service "ssh"; every endpoint of the output has the scheme
"https". -/
theorem C5_scheme_derivation_witness :
    (targetsFromNmapRun naturalLess
        ⟨[], false, "", true, "http-sshots.html", false, true, false, false, false⟩
        (fun _ => false)
        ⟨[⟨[⟨"10.0.0.1"⟩], [⟨"www.example", "user"⟩],
            [⟨22, ⟨"ssh", ""⟩⟩, ⟨443, ⟨"https", "ssl"⟩⟩]⟩]⟩).all
      (fun e => decide (e.Scheme = "https")) = true :=
  List.all_eq_true.2 (fun e he => decide_eq_true
    ((C5_scheme_derivation naturalLess
      ⟨[], false, "", true, "http-sshots.html", false, true, false, false, false⟩
      (fun _ => false)
      ⟨[⟨[⟨"10.0.0.1"⟩], [⟨"www.example", "user"⟩],
          [⟨22, ⟨"ssh", ""⟩⟩, ⟨443, ⟨"https", "ssl"⟩⟩]⟩]⟩).2
    ⟨[⟨"10.0.0.1"⟩], [⟨"www.example", "user"⟩], [⟨22, ⟨"ssh", ""⟩⟩, ⟨443, ⟨"https", "ssl"⟩⟩]⟩
    ⟨443, ⟨"https", "ssl"⟩⟩ rfl (by decide) e he))

/-- C6: unconditional inclusion in `targetsFromNmapRun`. For every host of the report
and every port of it whose service name starts with "http", the output has an
endpoint with each address of the host as its host and the port id as its port, and
one with each hostname of type "user" of the host; for every configuration and
every resolver. -/
theorem C6_unconditional_inclusion (less : String → String → Bool) (conf : Config)
    (lookup : String → Bool) (nr : NmapRun) :
    ∀ host ∈ nr.Hosts, ∀ port ∈ host.Ports,
      "http".toList.isPrefixOf port.Service.Name.toList = true →
      (∀ addr ∈ host.Addresses, ∃ e ∈ targetsFromNmapRun less conf lookup nr,
        e.Host = addr.Addr ∧ e.Port = port.PortId)
      ∧ (∀ hostname ∈ host.Hostnames, hostname.Typ = "user" →
        ∃ e ∈ targetsFromNmapRun less conf lookup nr,
          e.Host = hostname.Name ∧ e.Port = port.PortId) := by
  intro host hh port hp hq
  constructor
  · intro addr ha
    exact key_mem_targetsFromNmapRun less conf lookup nr ⟨schemeOf port, addr.Addr, port.PortId⟩
      ((mem_candidates conf lookup nr _).2
        ⟨host, hh, port, hp, hq, rfl, rfl, Or.inl ⟨addr, ha, rfl⟩⟩)
  · intro hostname hn hu
    exact key_mem_targetsFromNmapRun less conf lookup nr
      ⟨schemeOf port, hostname.Name, port.PortId⟩
      ((mem_candidates conf lookup nr _).2
        ⟨host, hh, port, hp, hq, rfl, rfl, Or.inr ⟨hostname, hn, rfl, Or.inl hu⟩⟩)

/-- C6 at a concrete input: with `AllHostnames` false and a resolver that fails on
every name, the output for a host with the address 10.0.0.1, the user hostname
www.example and the port 8080 of service "http-proxy" has an endpoint for the
address and one for the hostname. -/
theorem C6_unconditional_inclusion_witness :
    (∃ e ∈ targetsFromNmapRun naturalLess
        ⟨[], false, "", true, "http-sshots.html", false, true, false, false, false⟩
        (fun _ => false)
        ⟨[⟨[⟨"10.0.0.1"⟩], [⟨"www.example", "user"⟩], [⟨8080, ⟨"http-proxy", ""⟩⟩]⟩]⟩,
      e.Host = "10.0.0.1" ∧ e.Port = 8080)
    ∧ (∃ e ∈ targetsFromNmapRun naturalLess
        ⟨[], false, "", true, "http-sshots.html", false, true, false, false, false⟩
        (fun _ => false)
        ⟨[⟨[⟨"10.0.0.1"⟩], [⟨"www.example", "user"⟩], [⟨8080, ⟨"http-proxy", ""⟩⟩]⟩]⟩,
      e.Host = "www.example" ∧ e.Port = 8080) :=
  ⟨(C6_unconditional_inclusion naturalLess
      ⟨[], false, "", true, "http-sshots.html", false, true, false, false, false⟩
      (fun _ => false)
      ⟨[⟨[⟨"10.0.0.1"⟩], [⟨"www.example", "user"⟩], [⟨8080, ⟨"http-proxy", ""⟩⟩]⟩]⟩
      ⟨[⟨"10.0.0.1"⟩], [⟨"www.example", "user"⟩], [⟨8080, ⟨"http-proxy", ""⟩⟩]⟩
      (List.mem_singleton.2 rfl) ⟨8080, ⟨"http-proxy", ""⟩⟩ (List.mem_singleton.2 rfl)
      (by decide)).1 ⟨"10.0.0.1"⟩ (List.mem_singleton.2 rfl),
   (C6_unconditional_inclusion naturalLess
      ⟨[], false, "", true, "http-sshots.html", false, true, false, false, false⟩
      (fun _ => false)
      ⟨[⟨[⟨"10.0.0.1"⟩], [⟨"www.example", "user"⟩], [⟨8080, ⟨"http-proxy", ""⟩⟩]⟩]⟩
      ⟨[⟨"10.0.0.1"⟩], [⟨"www.example", "user"⟩], [⟨8080, ⟨"http-proxy", ""⟩⟩]⟩
      (List.mem_singleton.2 rfl) ⟨8080, ⟨"http-proxy", ""⟩⟩ (List.mem_singleton.2 rfl)
      (by decide)).2 ⟨"www.example", "user"⟩ (List.mem_singleton.2 rfl) rfl⟩

/-- C7: the gating of discovered hostnames in `targetsFromNmapRun`. Every endpoint of
the output has the port id of a qualifying port of a host of the report, and its host
is an address of that host, or a hostname of type "user" of it, or a hostname of
another type of it with `AllHostnames` set and a successful lookup of that name. With
`AllHostnames` false, or with a resolver that fails on every name, only addresses and
"user" hostnames occur. A failed lookup stops nothing: every hostname of a host with a
qualifying port whose lookup succeeds, with `AllHostnames` set, has an endpoint in
the output, whatever the lookups of the other names give. -/
theorem C7_hostname_gating (less : String → String → Bool) (conf : Config)
    (lookup : String → Bool) (nr : NmapRun) :
    (∀ e ∈ targetsFromNmapRun less conf lookup nr,
      ∃ host ∈ nr.Hosts, ∃ port ∈ host.Ports, qualifies port = true ∧
        e.Port = port.PortId ∧
        ((∃ addr ∈ host.Addresses, e.Host = addr.Addr) ∨
         (∃ hostname ∈ host.Hostnames, e.Host = hostname.Name ∧ hostname.Typ = "user") ∨
         (∃ hostname ∈ host.Hostnames, e.Host = hostname.Name ∧ hostname.Typ ≠ "user" ∧
            conf.AllHostnames = true ∧ lookup hostname.Name = true)))
    ∧ ((conf.AllHostnames = false ∨ ∀ name, lookup name = false) →
        ∀ e ∈ targetsFromNmapRun less conf lookup nr,
          ∃ host ∈ nr.Hosts, ∃ port ∈ host.Ports, qualifies port = true ∧
            e.Port = port.PortId ∧
            ((∃ addr ∈ host.Addresses, e.Host = addr.Addr) ∨
             (∃ hostname ∈ host.Hostnames, e.Host = hostname.Name ∧
                hostname.Typ = "user")))
    ∧ (∀ host ∈ nr.Hosts, ∀ port ∈ host.Ports, qualifies port = true →
        ∀ hostname ∈ host.Hostnames, conf.AllHostnames = true →
          lookup hostname.Name = true →
          ∃ e ∈ targetsFromNmapRun less conf lookup nr,
            e.Host = hostname.Name ∧ e.Port = port.PortId) := by
  have hmain : ∀ e ∈ targetsFromNmapRun less conf lookup nr,
      ∃ host ∈ nr.Hosts, ∃ port ∈ host.Ports, qualifies port = true ∧
        e.Port = port.PortId ∧
        ((∃ addr ∈ host.Addresses, e.Host = addr.Addr) ∨
         (∃ hostname ∈ host.Hostnames, e.Host = hostname.Name ∧ hostname.Typ = "user") ∨
         (∃ hostname ∈ host.Hostnames, e.Host = hostname.Name ∧ hostname.Typ ≠ "user" ∧
            conf.AllHostnames = true ∧ lookup hostname.Name = true)) := by
    intro e he
    obtain ⟨host, hh, port, hp, hq, -, hport, hsrc⟩ :=
      (mem_candidates conf lookup nr e).1 (mem_targetsFromNmapRun less conf lookup nr e he)
    refine ⟨host, hh, port, hp, hq, hport, ?_⟩
    rcases hsrc with h | ⟨hostname, hn, hhost, hu | hgate⟩
    · exact Or.inl h
    · exact Or.inr (Or.inl ⟨hostname, hn, hhost, hu⟩)
    · exact Or.inr (Or.inr ⟨hostname, hn, hhost, hgate⟩)
  refine ⟨hmain, ?_, ?_⟩
  · intro hoff e he
    obtain ⟨host, hh, port, hp, hq, hport, hsrc⟩ := hmain e he
    refine ⟨host, hh, port, hp, hq, hport, ?_⟩
    rcases hsrc with h | h | ⟨hostname, -, -, -, hall, hl⟩
    · exact Or.inl h
    · exact Or.inr h
    · rcases hoff with hoff | hoff
      · rw [hoff] at hall
        exact absurd hall (by simp)
      · rw [hoff hostname.Name] at hl
        exact absurd hl (by simp)
  · intro host hh port hp hq hostname hn hall hl
    refine key_mem_targetsFromNmapRun less conf lookup nr
      ⟨schemeOf port, hostname.Name, port.PortId⟩
      ((mem_candidates conf lookup nr _).2
        ⟨host, hh, port, hp, hq, rfl, rfl, Or.inr ⟨hostname, hn, rfl, ?_⟩⟩)
    by_cases hu : hostname.Typ = "user"
    · exact Or.inl hu
    · exact Or.inr ⟨hu, hall, hl⟩

/-- C7 at a concrete input: with `AllHostnames` set and a resolver that fails on
bad.example and succeeds on good.example, the output for a host with these two
discovered hostnames, in this order, has an endpoint for good.example; the output is
the address and good.example. -/
theorem C7_hostname_gating_witness :
    (∃ e ∈ targetsFromNmapRun naturalLess
        ⟨[], true, "", true, "http-sshots.html", false, true, false, false, false⟩
        (fun name => decide (name = "good.example"))
        ⟨[⟨[⟨"10.0.0.1"⟩], [⟨"bad.example", "PTR"⟩, ⟨"good.example", "PTR"⟩],
            [⟨80, ⟨"http", ""⟩⟩]⟩]⟩,
      e.Host = "good.example" ∧ e.Port = 80)
    ∧ targetsFromNmapRun naturalLess
        ⟨[], true, "", true, "http-sshots.html", false, true, false, false, false⟩
        (fun name => decide (name = "good.example"))
        ⟨[⟨[⟨"10.0.0.1"⟩], [⟨"bad.example", "PTR"⟩, ⟨"good.example", "PTR"⟩],
            [⟨80, ⟨"http", ""⟩⟩]⟩]⟩
      = [⟨"http", "10.0.0.1", 80⟩, ⟨"http", "good.example", 80⟩] :=
  ⟨(C7_hostname_gating naturalLess
      ⟨[], true, "", true, "http-sshots.html", false, true, false, false, false⟩
      (fun name => decide (name = "good.example"))
      ⟨[⟨[⟨"10.0.0.1"⟩], [⟨"bad.example", "PTR"⟩, ⟨"good.example", "PTR"⟩],
          [⟨80, ⟨"http", ""⟩⟩]⟩]⟩).2.2
      ⟨[⟨"10.0.0.1"⟩], [⟨"bad.example", "PTR"⟩, ⟨"good.example", "PTR"⟩],
        [⟨80, ⟨"http", ""⟩⟩]⟩
      (List.mem_singleton.2 rfl) ⟨80, ⟨"http", ""⟩⟩ (List.mem_singleton.2 rfl) (by decide)
      ⟨"good.example", "PTR"⟩ (by decide) rfl (by decide),
   by decide⟩

/-! ## The pipeline: claim C10 -/

theorem Add_unique (less : String → String → Bool) (t batch : Targets)
    (ht : UniqueKeys t) (hb : UniqueKeys batch) : UniqueKeys (Targets.Add less t batch) := by
  cases t with
  | nil => exact (uniqueKeys_perm (Add_nil_perm less batch)).2 hb
  | cons a as => exact Add_unique_of_ne_nil less (a :: as) batch (List.cons_ne_nil a as) ht

theorem loadTargets_unique (less : String → String → Bool) (conf : Config)
    (lookup : String → Bool) (reports : List NmapRun) (targets : Targets)
    (h : UniqueKeys targets) :
    ∃ t, loadTargets less conf lookup (reports.map some) targets = some t ∧ UniqueKeys t := by
  induction reports generalizing targets with
  | nil => exact ⟨targets, rfl, h⟩
  | cons nr rest ih =>
    simp only [List.map_cons, loadTargets]
    exact ih _ (Add_unique less targets _ h (targetsFromNmapRun_unique less conf lookup nr))

/-- C10: uniqueness from end to end. For every order function, configuration and
resolver, the list returned by `targetsFromNmapRun` has pairwise distinct
`(Host, Port)` keys, and for every list of parsed reports the loop of `main`, from
the empty collection and with one `targets.Add(targetsFromNmapRun(report)...)` per
report, ends with a target list whose keys are pairwise distinct; reports that
yield no endpoint, leading ones included, are among the lists. -/
theorem C10_pipeline_unique (less : String → String → Bool) (conf : Config)
    (lookup : String → Bool) :
    (∀ nr : NmapRun,
      (targetsFromNmapRun less conf lookup nr).Pairwise
        (fun a b => ¬ (a.Host = b.Host ∧ a.Port = b.Port)))
    ∧ (∀ reports : List NmapRun,
        ∃ t, loadTargets less conf lookup (reports.map some) [] = some t ∧
          t.Pairwise (fun a b => ¬ (a.Host = b.Host ∧ a.Port = b.Port))) :=
  ⟨fun nr => targetsFromNmapRun_unique less conf lookup nr,
   fun reports => loadTargets_unique less conf lookup reports [] List.Pairwise.nil⟩

/-! ## The capture loop: claim C8 -/

theorem captureLoop_eq (encode : List Nat → String) (page : Nat → PageResult)
    (targets : List Target) (i : Nat) (doc : List String) :
    captureLoop encode page i targets doc =
      doc ++ (targets.enumFrom i).filterMap (fun p => specBlock encode page p.1 p.2) := by
  induction targets generalizing i doc with
  | nil => simp [captureLoop]
  | cons t ts ih =>
    rw [captureLoop, List.enumFrom_cons, List.filterMap_cons]
    cases hn : (page i).Navigate with
    | false => simp [specBlock, hn, ih]
    | true =>
      cases hw : (page i).WaitLoad with
      | false => simp [specBlock, hn, hw, ih]
      | true =>
        cases hs : (page i).Screenshot with
        | none => simp [specBlock, hn, hw, hs, ih]
        | some sshotb => simp [specBlock, hn, hw, hs, ih, Target.String]

theorem length_specBlocks (encode : List Nat → String) (page : Nat → PageResult)
    (targets : List Target) (i : Nat) :
    ((targets.enumFrom i).filterMap (fun p => specBlock encode page p.1 p.2)).length =
      ((targets.enumFrom i).filter (fun p =>
        (page p.1).Navigate && (page p.1).WaitLoad && (page p.1).Screenshot.isSome)).length := by
  induction targets generalizing i with
  | nil => simp
  | cons t ts ih =>
    rw [List.enumFrom_cons, List.filterMap_cons, List.filter_cons]
    have ih1 := ih (i + 1)
    simp only [specBlock] at ih1 ⊢
    cases hn : (page i).Navigate with
    | false => simp [hn, ih1]
    | true =>
      cases hw : (page i).WaitLoad with
      | false => simp [hn, hw, ih1]
      | true =>
        cases hs : (page i).Screenshot with
        | none => simp [hn, hw, hs, ih1]
        | some sshotb => simp [hn, hw, hs, ih1]

/-- C8: failure isolation in the capture loop of `main`. For every target list and
every outcome of `Navigate`, `WaitLoad` and `Screenshot` per position, the strings
that the loop writes after `doc` are, in the order of the target list, one block
for each target on which the three steps succeed, built from the URL
`scheme://host:port`, and nothing for a target on which a step fails; the number of
blocks is the number of such targets. Of three targets of which the second fails
navigation while the others succeed, the blocks of the first and the third are
written. -/
theorem C8_capture_isolation (encode : List Nat → String) (page : Nat → PageResult)
    (targets : List Target) (doc : List String) :
    captureLoop encode page 0 targets doc =
        doc ++ targets.enum.filterMap (fun p => specBlock encode page p.1 p.2)
    ∧ (captureLoop encode page 0 targets doc).length =
        doc.length + (targets.enum.filter (fun p =>
          (page p.1).Navigate && (page p.1).WaitLoad && (page p.1).Screenshot.isSome)).length
    ∧ (∀ (t1 t2 t3 : Target) (b1 b3 : List Nat), targets = [t1, t2, t3] →
        (page 0).Navigate = true → (page 0).WaitLoad = true →
        (page 0).Screenshot = some b1 → (page 1).Navigate = false →
        (page 2).Navigate = true → (page 2).WaitLoad = true →
        (page 2).Screenshot = some b3 →
        captureLoop encode page 0 targets doc =
          doc ++ [htmlImage t1.String (encode b1), htmlImage t3.String (encode b3)]) := by
  have heq := captureLoop_eq encode page targets 0 doc
  refine ⟨heq, ?_, ?_⟩
  · rw [heq, List.length_append, List.enum, length_specBlocks]
  · intro t1 t2 t3 b1 b3 ht h0n h0w h0s h1n h2n h2w h2s
    subst ht
    simp [captureLoop, h0n, h0w, h0s, h1n, h2n, h2w, h2s]

/-- C8 at a concrete input: three targets, the page failing navigation on the second;
the loop writes the block of the first and the block of the third. -/
theorem C8_capture_isolation_witness :
    captureLoop (fun _ => "aGk=")
        (fun i => if i = 1 then ⟨false, true, some [104, 105]⟩
          else ⟨true, true, some [104, 105]⟩) 0
        [⟨"http", "10.0.0.2", 80⟩, ⟨"http", "10.0.0.10", 80⟩, ⟨"https", "a2.example", 443⟩]
        [htmlIntro]
      = [htmlIntro] ++ [htmlImage "http://10.0.0.2:80" "aGk=",
          htmlImage "https://a2.example:443" "aGk="] :=
  (C8_capture_isolation (fun _ => "aGk=")
      (fun i => if i = 1 then ⟨false, true, some [104, 105]⟩
        else ⟨true, true, some [104, 105]⟩)
      [⟨"http", "10.0.0.2", 80⟩, ⟨"http", "10.0.0.10", 80⟩, ⟨"https", "a2.example", 443⟩]
      [htmlIntro]).2.2
    ⟨"http", "10.0.0.2", 80⟩ ⟨"http", "10.0.0.10", 80⟩ ⟨"https", "a2.example", 443⟩
    [104, 105] [104, 105] rfl rfl rfl rfl rfl rfl rfl rfl

/-! ## The output file on exit: claim C9 -/

/-- When `main` returns or ends by a panic after the file was opened, the deferred
closure has run: the footer is the last string written and the file is closed. -/
theorem main_deferred_ran (less : String → String → Bool) (conf : Config)
    (lookup : String → Bool) (encode : List Nat → String) (env : Env) (doc : Doc)
    (hend : (main less conf lookup encode env).ending ≠ Ending.fatal)
    (hdoc : (main less conf lookup encode env).doc = some doc) :
    doc.closed = true ∧ doc.written.getLast? = some htmlOutro := by
  cases hload : loadTargets less conf lookup env.reports [] with
  | none => simp [main, hload] at hend
  | some targets =>
    by_cases hlen : targets.length = 0
    · simp [main, hload, hlen] at hend
    · by_cases hex : (env.outFileExists && !conf.Overwrite) = true
      · simp [main, hload, hlen, hex] at hend
      · cases hlaunch : env.launch with
        | false => simp [main, hload, hlen, hex, hlaunch] at hend
        | true =>
          cases hopen : env.openFile with
          | false =>
            cases hconn : env.connect <;>
              simp [main, hload, hlen, hex, hlaunch, hopen, hconn] at hdoc
          | true =>
            cases hconn : env.connect with
            | false =>
              simp [main, hload, hlen, hex, hlaunch, hopen, hconn, deferredClose] at hdoc
              subst hdoc
              simp
            | true =>
              simp [main, hload, hlen, hex, hlaunch, hopen, hconn, deferredClose] at hdoc
              subst hdoc
              simp

/-- C9, evaluated at the failing input: one report with one HTTP target, an output
file that opens, and a browser that fails to launch. `main` ends by
`logErr.Fatalf`, and the output file holds the header alone: the footer is not
written and the file is not closed. -/
theorem C9_fatal_after_open_skips_footer :
    main naturalLess
      ⟨["scan.xml"], false, "", true, "http-sshots.html", false, true, false, false, false⟩
      (fun _ => false) (fun _ => "")
      { reports := [some ⟨[⟨[⟨"10.0.0.1"⟩], [], [⟨80, ⟨"http", ""⟩⟩]⟩]⟩],
        outFileExists := false, openFile := true, launch := false, connect := true,
        page := fun _ => ⟨true, true, some []⟩ }
    = ⟨Ending.fatal, some ⟨[htmlIntro], false⟩⟩ := by
  rfl

end HttpScreenshot
